import Mathlib

/-!
# Verification of the NeuralNetwork repository against its specification

The repository implements a small vectorized feed-forward neural network:
mini-batches are matrices whose columns are examples, the forward pass is
`result = W·result + b` followed by the activation at each layer, the
backward pass produces per-layer deltas, and the updater subtracts scaled
gradients from the weights and biases.  Model persistence assigns
`shape`, `weights`, `biases` from a JSON document in sequence.

We embed matrices as lists of rows over `ℚ` (the code uses `numpy`
floating-point arrays; all claims here are about shapes, data flow and
exact algebraic form, not rounding).
-/

set_option autoImplicit false

namespace NeuralNetImpl

/-- A matrix is a list of rows of rationals (`np.array` of 2 dimensions). -/
abbrev Mat := List (List ℚ)

/-- `HasDims m r c`: `m` is a well-formed `r × c` matrix (`m.shape == (r, c)`). -/
def HasDims (m : Mat) (r c : Nat) : Prop :=
  m.length = r ∧ ∀ row ∈ m, row.length = c

instance (m : Mat) (r c : Nat) : Decidable (HasDims m r c) := by
  unfold HasDims; infer_instance

/-- Dot product of two rows, the scalar kernel of `np.dot`. -/
def dotProd (xs ys : List ℚ) : ℚ :=
  (List.zipWith (· * ·) xs ys).sum

/-- Transpose of a matrix (`.T` in the source), reading columns off by index. -/
def transposeM (m : Mat) : Mat :=
  match m with
  | [] => []
  | r :: _ => (List.range r.length).map (fun j => m.map (fun row => row.getD j 0))

/-- Matrix product, `np.dot(A, B)` for 2-D operands. -/
def matMul (A B : Mat) : Mat :=
  A.map (fun ra => (transposeM B).map (fun cb => dotProd ra cb))

/-- Elementwise combination of two same-shaped matrices. -/
def zipWith2D (f : ℚ → ℚ → ℚ) (A B : Mat) : Mat :=
  List.zipWith (List.zipWith f) A B

/-- Elementwise difference `A - B`. -/
def matSub (A B : Mat) : Mat := zipWith2D (· - ·) A B

/-- Hadamard (elementwise) product `A * B`. -/
def hadamard (A B : Mat) : Mat := zipWith2D (· * ·) A B

/-- `M + b` where `b` is an `(n, 1)` column that numpy broadcasts across
the `k` columns of `M`: every entry of row `i` of `M` gets `b`'s entry `i`. -/
def addBias (M b : Mat) : Mat :=
  List.zipWith (fun row brow => row.map (· + brow.headD 0)) M b

/-- Apply a scalar function elementwise (a vectorized activation). -/
def mapMat (f : ℚ → ℚ) (M : Mat) : Mat :=
  M.map (fun row => row.map f)

/-- Scalar multiple of a matrix. -/
def smulMat (c : ℚ) (M : Mat) : Mat := mapMat (c * ·) M

/-! ## The network object and the feed-forward loop

The loop in the source is

```
for w, b in zip(self.weights, self.biases):
    result = np.dot(w, result) + b
    self.outputs.append(result)
    result = self.activation(result)
    self.activations.append(result)
```

`result` starts as the input batch, which is also `activations[0]`.
-/

/-- The mutable fields of the `NeuralNetwork` object that the claims touch. -/
structure NetState where
  shape : List Nat
  weights : List Mat
  biases : List Mat
  outputs : List Mat
  activations : List Mat
deriving DecidableEq, Repr

/-- The body of the feed-forward loop, iterated over `zip(weights, biases)`:
accumulates the pre-activation (`output`) and activation lists. -/
def feedForward (act : ℚ → ℚ) : List (Mat × Mat) → Mat → List Mat × List Mat
  | [], _ => ([], [])
  | (w, b) :: rest, x =>
    (addBias (matMul w x) b ::
       (feedForward act rest (mapMat act (addBias (matMul w x) b))).1,
     mapMat act (addBias (matMul w x) b) ::
       (feedForward act rest (mapMat act (addBias (matMul w x) b))).2)

/-- The forward pass on the network object: runs the loop on the input batch
and stores the intermediates; `activations[0]` is the batch itself. -/
def forwardPass (act : ℚ → ℚ) (st : NetState) (input : Mat) : NetState :=
  { st with
    outputs := (feedForward act (st.weights.zip st.biases) input).1,
    activations := input :: (feedForward act (st.weights.zip st.biases) input).2 }

/-- The network's prediction: the last activation. -/
def finalActivation (st : NetState) : Mat := st.activations.getLastD []

/-- `WeightsMatch nprev ws ns`: the weight list `ws` matches the shape whose
previous-layer width is `nprev` and remaining layer widths are `ns`;
weight `l` has dimensions `(shape[l], shape[l-1])` and the count is `L - 1`. -/
def WeightsMatch : Nat → List Mat → List Nat → Prop
  | _, [], [] => True
  | nprev, w :: ws, n :: ns => HasDims w n nprev ∧ WeightsMatch n ws ns
  | _, _, _ => False

/-- `BiasesMatch bs ns`: bias `l` has dimensions `(shape[l], 1)`, count `L - 1`. -/
def BiasesMatch : List Mat → List Nat → Prop
  | [], [] => True
  | b :: bs, n :: ns => HasDims b n 1 ∧ BiasesMatch bs ns
  | _, _ => False

instance weightsMatchDec :
    (nprev : Nat) → (ws : List Mat) → (ns : List Nat) →
      Decidable (WeightsMatch nprev ws ns)
  | _, [], [] => .isTrue trivial
  | _, [], _ :: _ => .isFalse (fun h => h)
  | _, _ :: _, [] => .isFalse (fun h => h)
  | _, w :: ws, n :: ns =>
    have : Decidable (WeightsMatch n ws ns) := weightsMatchDec n ws ns
    inferInstanceAs (Decidable (_ ∧ _))

instance biasesMatchDec :
    (bs : List Mat) → (ns : List Nat) → Decidable (BiasesMatch bs ns)
  | [], [] => .isTrue trivial
  | [], _ :: _ => .isFalse (fun h => h)
  | _ :: _, [] => .isFalse (fun h => h)
  | _ :: bs, _ :: ns =>
    have : Decidable (BiasesMatch bs ns) := biasesMatchDec bs ns
    inferInstanceAs (Decidable (_ ∧ _))

/-- A concrete `[1, 1]` network used to instantiate theorems with hypotheses. -/
def stW : NetState :=
  { shape := [1, 1], weights := [[[1]]], biases := [[[0]]],
    outputs := [], activations := [] }

/-- Modelled from the spec: the delta-computation code is not among the
excerpted cells of `src/InterestingBits.ipynb` (the notebook states only the
equations `δ^L = ∇_a C ⊙ σ'(z^L)` and `δ^l = ((w^(l+1))^T δ^(l+1)) ⊙ σ'(z^l)`,
with mean-squared-error cost so that `∇_a C = activations[L-1] − target`).
`backDeltas σd zL target os ws` walks the pre-activation list
`os = [o_1, …, o_(L-1)]` with the weight tail `ws = [W_2, …, W_(L-1)]`,
producing one delta per non-input layer, top layer computed from the final
activation `zL` and the `target` batch. -/
def backDeltas (σd : ℚ → ℚ) (zL target : Mat) : List Mat → List Mat → List Mat
  | [o], [] => [hadamard (matSub zL target) (mapMat σd o)]
  | o :: os, w :: ws =>
    hadamard (matMul (transposeM w) ((backDeltas σd zL target os ws).headD []))
        (mapMat σd o)
      :: backDeltas σd zL target os ws
  | _, _ => []

/-- Modelled from the spec: the backward pass over the whole layer stack,
`backward(store, outputs, activations, target) -> deltas`. -/
def backward (σd : ℚ → ℚ) (weights outputs activations : List Mat)
    (target : Mat) : List Mat :=
  backDeltas σd (activations.getLastD []) target outputs weights.tail

/-! ## The updater

The source cells are

```
self.biases = [b - (learning_rate/total)* (np.sum(d, axis=1)).resape(b.shape) \
               for b, d  in zip(self.biases, self.deltas)]
```

(sic: `resape` — the notebook's own text right below the cell documents the
call as `.reshape(b.shape)` and calls it "fundamental") and

```
self.weights =  [w - (eta/total) * np.dot(d, a.T) \
                 for w, d, a in zip(self.weights, self.deltas, self.activations)]
```
-/

/-- `np.sum(d, axis=1)`: column-wise summation, one scalar per row of `d`. -/
def colwiseSum (m : Mat) : List ℚ := m.map (fun row => row.sum)

/-- `v.reshape((r, c))` on a flat length-`n` vector: `none` models the
`ValueError` numpy raises when `n ≠ r * c`. -/
def reshapeTo (v : List ℚ) (r c : Nat) : Option Mat :=
  if v.length = r * c then
    some ((List.range r).map (fun i => (List.range c).map (fun j => v.getD (i * c + j) 0)))
  else none

/-- One entry of the bias-update comprehension, with the reshape call spelled
`reshape` as the notebook's accompanying text documents it; the code cell
itself spells it `resape`, which is not an `ndarray` attribute and raises
`AttributeError` on every call (see the C1 record). -/
def biasStep (lr total : ℚ) (b d : Mat) : Option Mat :=
  (reshapeTo (colwiseSum d) b.length (b.headD []).length).map
    (fun s => matSub b (smulMat (lr / total) s))

/-- The bias-update comprehension over `zip(self.biases, self.deltas)`; a
raised error aborts the whole comprehension before the assignment, so the
result is all-or-nothing. -/
def biasUpdate (lr total : ℚ) : List Mat → List Mat → Option (List Mat)
  | b :: bs, d :: ds => do
    let s ← biasStep lr total b d
    let rest ← biasUpdate lr total bs ds
    pure (s :: rest)
  | _, _ => some []

/-- `zip(self.weights, self.deltas, self.activations)` folded with `f`. -/
def zip3With (f : Mat → Mat → Mat → Mat) :
    List Mat → List Mat → List Mat → List Mat
  | w :: ws, d :: ds, a :: acts => f w d a :: zip3With f ws ds acts
  | _, _, _ => []

/-- The weight-update comprehension:
`[w - (eta/total) * np.dot(d, a.T) for w, d, a in zip(...)]`. -/
def weightUpdate (eta total : ℚ) (weights deltas activations : List Mat) :
    List Mat :=
  zip3With
    (fun w d a => matSub w (smulMat (eta / total) (matMul d (transposeM a))))
    weights deltas activations

/-! ## Model persistence (`load`) and construction

The source `load` method is

```
def load(self, file_location):
    with open(file_location, 'r') as fp:
        data = json.load(fp)
    try:
        self.shape = data["shape"]
        self.weights = [np.array(w) for w in data["weights"]]
        self.biases = [np.array(b) for b in data["biases"]]
    except KeyError as e:
        print("Load failed, ...", e)
        raise
```

The three assignments run in sequence; a missing key raises `KeyError`
after the earlier assignments have already mutated `self`.
-/

/-- Errors `load` can raise. -/
inductive LoadErr where
  | fileNotFound
  | keyError (key : String)
deriving DecidableEq, Repr

/-- A parsed JSON document: each contractual key is present or absent. -/
structure Doc where
  shapeKey : Option (List Nat)
  weightsKey : Option (List Mat)
  biasesKey : Option (List Mat)
deriving DecidableEq, Repr

/-- The `load` method.  The file is `none` when unreadable
(`FileNotFoundError`); key lookups that fail raise `KeyError`.  The method
mutates `self` field by field, so the returned state reflects exactly the
assignments executed before the first failure. -/
def load (st : NetState) (file : Option Doc) : NetState × Option LoadErr :=
  match file with
  | none => (st, some .fileNotFound)
  | some doc =>
    match doc.shapeKey with
    | none => (st, some (.keyError "shape"))
    | some s =>
      match doc.weightsKey with
      | none => ({ st with shape := s }, some (.keyError "weights"))
      | some ws =>
        match doc.biasesKey with
        | none => ({ st with shape := s, weights := ws }, some (.keyError "biases"))
        | some bs => ({ st with shape := s, weights := ws, biases := bs }, none)

/-- Errors the list-shape constructor branch can raise. -/
inductive InitErr where
  | configurationError
  | memoryError
deriving DecidableEq, Repr

/-- An `r × c` matrix of zeroes. Modelled from the spec for the `_init_*`
helpers that the excerpt only calls: §4.2 zero-initializes weight and bias
arrays of the documented dimensions. -/
def zerosMat (r c : Nat) : Mat :=
  (List.range r).map (fun _ => (List.range c).map (fun _ => (0 : ℚ)))

/-- Modelled from the spec: `_init_weights`, one `(shape[l], shape[l-1])`
zero matrix per non-input layer. -/
def initWeights (shape : List Nat) : List Mat :=
  (shape.zip shape.tail).map (fun p => zerosMat p.2 p.1)

/-- Modelled from the spec: `_init_biases`, one `(shape[l], 1)` zero column
per non-input layer. -/
def initBiases (shape : List Nat) : List Mat :=
  shape.tail.map (fun n => zerosMat n 1)

/-- The list branch of the constructor:
`if len(shape_or_file) < 2: raise ValueError` (the spec's
`ConfigurationError`) happens before any `_init_*` call, so a failed
construction allocates nothing. -/
def fromShape (shape : List Nat) : Except InitErr NetState :=
  if shape.length < 2 then .error .configurationError
  else .ok { shape := shape, weights := initWeights shape,
             biases := initBiases shape, outputs := [], activations := [] }

/-! ## Construction from training data (`self.data = train_data.T`) -/

/-- The constructor's handling of the training examples and labels:
`self.data = np.array(train_data).T`, `self.target = np.array(train_labels).T`. -/
def storeTrainingData (train_data train_labels : Mat) : Mat × Mat :=
  (transposeM train_data, transposeM train_labels)

/-- The constructor's handling of held-out test data (when supplied):
`self.test_data = np.array(test_data).T`, likewise for the labels. -/
def storeTestData (test_data test_labels : Mat) : Mat × Mat :=
  (transposeM test_data, transposeM test_labels)

/-- The prior state of a restored network, used to exhibit `load`'s
partial-mutation behavior. -/
def stPrior : NetState :=
  { shape := [2, 2], weights := [[[1, 0], [0, 1]]], biases := [[[0], [0]]],
    outputs := [], activations := [] }

/-- A document with a `shape` key but no `weights` key. -/
def docMissingWeights : Doc :=
  { shapeKey := some [9, 9], weightsKey := none, biasesKey := none }

/-- A document whose weight and bias dimensions contradict its declared shape:
shape `[2, 3]` demands one `3 × 2` weight and one `3 × 1` bias, but the
document carries `1 × 1` entries. -/
def docInconsistent : Doc :=
  { shapeKey := some [2, 3], weightsKey := some [[[5]]],
    biasesKey := some [[[7]]] }

/-! ## Theorems -/

/-! ## Dimension lemmas for the primitives -/

theorem mem_zipWith {α β γ : Type} {f : α → β → γ} :
    ∀ {l₁ : List α} {l₂ : List β} {x : γ}, x ∈ List.zipWith f l₁ l₂ →
      ∃ a ∈ l₁, ∃ b ∈ l₂, x = f a b := by
  intro l₁
  induction l₁ with
  | nil => intro l₂ x hx; simp at hx
  | cons a as ih =>
    intro l₂ x hx
    cases l₂ with
    | nil => simp at hx
    | cons b bs =>
      rw [List.zipWith_cons_cons] at hx
      rcases List.mem_cons.mp hx with h | h
      · exact ⟨a, by simp, b, by simp, h⟩
      · rcases ih h with ⟨a', ha', b', hb', h'⟩
        exact ⟨a', by simp [ha'], b', by simp [hb'], h'⟩

theorem transposeM_dims {B : Mat} {n c : Nat}
    (hB : HasDims B n c) (hn : 0 < n) : HasDims (transposeM B) c n := by
  obtain ⟨hlen, hrow⟩ := hB
  cases B with
  | nil => simp at hlen; omega
  | cons r rest =>
    have hr : r.length = c := hrow r (by simp)
    constructor
    · simp [transposeM, hr]
    · intro row hmem
      simp only [transposeM, List.mem_map, List.mem_range] at hmem
      obtain ⟨j, _, rfl⟩ := hmem
      simpa using hlen

theorem matMul_dims {A B : Mat} {r n c : Nat}
    (hA : HasDims A r n) (hB : HasDims B n c) (hn : 0 < n) :
    HasDims (matMul A B) r c := by
  obtain ⟨hAlen, _⟩ := hA
  have hT := transposeM_dims hB hn
  constructor
  · simp [matMul, hAlen]
  · intro row hmem
    simp only [matMul, List.mem_map] at hmem
    obtain ⟨ra, _, rfl⟩ := hmem
    simp [hT.1]

theorem zipWith2D_dims {f : ℚ → ℚ → ℚ} {A B : Mat} {r c : Nat}
    (hA : HasDims A r c) (hB : HasDims B r c) :
    HasDims (zipWith2D f A B) r c := by
  constructor
  · simp [zipWith2D, hA.1, hB.1]
  · intro row hmem
    rcases mem_zipWith hmem with ⟨a, ha, b, hb, rfl⟩
    simp [hA.2 a ha, hB.2 b hb]

theorem matSub_dims {A B : Mat} {r c : Nat}
    (hA : HasDims A r c) (hB : HasDims B r c) : HasDims (matSub A B) r c :=
  zipWith2D_dims hA hB

theorem hadamard_dims {A B : Mat} {r c : Nat}
    (hA : HasDims A r c) (hB : HasDims B r c) : HasDims (hadamard A B) r c :=
  zipWith2D_dims hA hB

theorem addBias_dims {M b : Mat} {r c : Nat}
    (hM : HasDims M r c) (hb : HasDims b r 1) :
    HasDims (addBias M b) r c := by
  constructor
  · simp [addBias, hM.1, hb.1]
  · intro row hmem
    rcases mem_zipWith hmem with ⟨a, ha, brow, _, rfl⟩
    simp [hM.2 a ha]

theorem mapMat_dims {f : ℚ → ℚ} {M : Mat} {r c : Nat}
    (hM : HasDims M r c) : HasDims (mapMat f M) r c := by
  constructor
  · simp [mapMat, hM.1]
  · intro row hmem
    simp only [mapMat, List.mem_map] at hmem
    obtain ⟨a, ha, rfl⟩ := hmem
    simp [hM.2 a ha]

theorem smulMat_dims {e : ℚ} {M : Mat} {r c : Nat}
    (hM : HasDims M r c) : HasDims (smulMat e M) r c :=
  mapMat_dims hM

theorem weightsMatch_length :
    ∀ (np : Nat) (ws : List Mat) (ns : List Nat),
      WeightsMatch np ws ns → ws.length = ns.length
  | _, [], [], _ => rfl
  | _, _ :: ws, n :: ns, h => by
    have := weightsMatch_length n ws ns h.2
    simp [this]
  | _, [], _ :: _, h => absurd h (fun h => h)
  | _, _ :: _, [], h => absurd h (fun h => h)

/-- Dimension soundness of the feed-forward loop: every output and every
activation of layer `l` is a `(shape[l], k)` matrix. -/
theorem feedForward_dims (act : ℚ → ℚ) (k : Nat)
    (nprev : Nat) (ws bs : List Mat) (ns : List Nat) (x : Mat)
    (hw : WeightsMatch nprev ws ns) (hb : BiasesMatch bs ns)
    (hx : HasDims x nprev k) (hp : 0 < nprev) (hns : ∀ n ∈ ns, 0 < n) :
    List.Forall₂ (fun n m => HasDims m n k) ns (feedForward act (ws.zip bs) x).1 ∧
    List.Forall₂ (fun n m => HasDims m n k) ns (feedForward act (ws.zip bs) x).2 := by
  induction ws generalizing nprev bs ns x with
  | nil =>
    cases bs with
    | nil =>
      cases ns with
      | nil => exact ⟨.nil, .nil⟩
      | cons n ns => exact absurd hw (fun h => h)
    | cons b bs =>
      cases ns with
      | nil => exact absurd hb (fun h => h)
      | cons n ns => exact absurd hw (fun h => h)
  | cons w ws ih =>
    cases bs with
    | nil =>
      cases ns with
      | nil => exact absurd hw (fun h => h)
      | cons n ns => exact absurd hb (fun h => h)
    | cons b bs =>
      cases ns with
      | nil => exact absurd hw (fun h => h)
      | cons n ns =>
        obtain ⟨hwd, hw'⟩ := hw
        obtain ⟨hbd, hb'⟩ := hb
        have hpn : 0 < n := hns n (by simp)
        have hout : HasDims (addBias (matMul w x) b) n k :=
          addBias_dims (matMul_dims hwd hx hp) hbd
        have hactv : HasDims (mapMat act (addBias (matMul w x) b)) n k :=
          mapMat_dims hout
        have hrest := ih n bs ns _ hw' hb' hactv hpn
          (fun m hm => hns m (by simp [hm]))
        constructor
        · simp only [List.zip_cons_cons, feedForward]
          exact List.Forall₂.cons hout hrest.1
        · simp only [List.zip_cons_cons, feedForward]
          exact List.Forall₂.cons hactv hrest.2

theorem forall₂_getLastD {R : Nat → Mat → Prop} {ns : List Nat} {ms : List Mat}
    (h : List.Forall₂ R ns ms) :
    ∀ (n0 : Nat) (x : Mat), R n0 x →
      R ((n0 :: ns).getLastD 0) ((x :: ms).getLastD []) := by
  induction h with
  | nil => intro n0 x hx; simpa using hx
  | @cons n m ns' ms' hR hrest ih =>
    intro n0 x hx
    simpa [List.getLastD_cons] using ih n m hR

theorem forall₂_mem_right {R : Nat → Mat → Prop} {ns : List Nat} {ms : List Mat}
    (h : List.Forall₂ R ns ms) : ∀ m ∈ ms, ∃ n ∈ ns, R n m := by
  induction h with
  | nil => simp
  | @cons n m' ns' ms' hR hrest ih =>
    intro m hm
    rcases List.mem_cons.mp hm with rfl | hm
    · exact ⟨n, by simp, hR⟩
    · rcases ih m hm with ⟨n', hn', hR'⟩
      exact ⟨n', by simp [hn'], hR'⟩

/-- **C5.** For every valid shape `[n0, …, n(L-1)]` (length ≥ 2, positive
entries), every parameter store matching that shape, and every input batch of
dimensions `(n0, k)` with `k ≥ 1`, the forward pass returns a final activation
of dimensions `(n(L-1), k)`, and the batch-column count `k` is preserved
through every intermediate output and activation. -/
theorem forward_final_dims (act : ℚ → ℚ) (st : NetState) (input : Mat)
    (n0 k : Nat) (ns : List Nat)
    (hshape : st.shape = n0 :: ns) (hlen : 2 ≤ st.shape.length)
    (hw : WeightsMatch n0 st.weights ns) (hb : BiasesMatch st.biases ns)
    (hpos : ∀ n ∈ st.shape, 0 < n)
    (hx : HasDims input n0 k) (hk : 1 ≤ k) :
    HasDims (finalActivation (forwardPass act st input)) (st.shape.getLastD 0) k ∧
    (∀ m ∈ (forwardPass act st input).outputs, ∀ row ∈ m, row.length = k) ∧
    (∀ m ∈ (forwardPass act st input).activations, ∀ row ∈ m, row.length = k) := by
  have hp0 : 0 < n0 := hpos n0 (by simp [hshape])
  have hns : ∀ n ∈ ns, 0 < n := fun n hn => hpos n (by simp [hshape, hn])
  have main := feedForward_dims act k n0 st.weights st.biases ns input hw hb hx hp0 hns
  refine ⟨?_, ?_, ?_⟩
  · have := forall₂_getLastD main.2 n0 input hx
    simpa [finalActivation, forwardPass, hshape] using this
  · intro m hm row hrow
    have hm' : m ∈ (feedForward act (st.weights.zip st.biases) input).1 := by
      simpa [forwardPass] using hm
    rcases forall₂_mem_right main.1 m hm' with ⟨n, _, hd⟩
    exact hd.2 row hrow
  · intro m hm row hrow
    have hm' : m = input ∨ m ∈ (feedForward act (st.weights.zip st.biases) input).2 := by
      simpa [forwardPass] using hm
    rcases hm' with rfl | hm'
    · exact hx.2 row hrow
    · rcases forall₂_mem_right main.2 m hm' with ⟨n, _, hd⟩
      exact hd.2 row hrow

theorem forward_final_dims_witness :
    HasDims (finalActivation (forwardPass id stW [[2]])) (stW.shape.getLastD 0) 1 ∧
    (∀ m ∈ (forwardPass id stW [[2]]).outputs, ∀ row ∈ m, row.length = 1) ∧
    (∀ m ∈ (forwardPass id stW [[2]]).activations, ∀ row ∈ m, row.length = 1) :=
  forward_final_dims id stW [[2]] 1 1 [1] rfl (by decide) (by decide) (by decide)
    (by decide) (by decide) (by decide)

/-! ## Backpropagation deltas -/

theorem getLastD_irrel {α : Type} (l : List α) (h : l ≠ []) (d₁ d₂ : α) :
    l.getLastD d₁ = l.getLastD d₂ := by
  cases l with
  | nil => exact absurd rfl h
  | cons a l => rw [List.getLastD_cons, List.getLastD_cons]

theorem backDeltas_eqs (σd : ℚ → ℚ) (zL t : Mat) :
    ∀ (ws os : List Mat), os.length = ws.length + 1 →
      (backDeltas σd zL t os ws).length = os.length ∧
      (backDeltas σd zL t os ws).getLastD [] =
        hadamard (matSub zL t) (mapMat σd (os.getLastD [])) ∧
      ∀ l, l + 1 < os.length →
        (backDeltas σd zL t os ws).getD l [] =
          hadamard (matMul (transposeM (ws.getD l []))
              ((backDeltas σd zL t os ws).getD (l + 1) []))
            (mapMat σd (os.getD l [])) := by
  intro ws
  induction ws with
  | nil =>
    intro os hos
    match os, hos with
    | [o], _ =>
      refine ⟨rfl, by simp [backDeltas], ?_⟩
      intro l hl
      simp at hl
  | cons w ws' ih =>
    intro os hos
    match os, hos with
    | o :: os', hos =>
      have hos' : os'.length = ws'.length + 1 := by
        simpa using hos
      obtain ⟨ih1, ih2, ih3⟩ := ih os' hos'
      have hne : backDeltas σd zL t os' ws' ≠ [] := by
        intro hcon
        rw [hcon] at ih1
        simp at ih1
        omega
      refine ⟨by simp [backDeltas, ih1], ?_, ?_⟩
      · have h1 : (backDeltas σd zL t (o :: os') (w :: ws')).getLastD [] =
            (backDeltas σd zL t os' ws').getLastD [] := by
          simp only [backDeltas, List.getLastD_cons]
          exact getLastD_irrel _ hne _ _
        have h2 : (o :: os').getLastD [] = os'.getLastD [] := by
          have hne' : os' ≠ [] := by
            intro hcon; rw [hcon] at hos'; simp at hos'
          simp only [List.getLastD_cons]
          exact getLastD_irrel _ hne' _ _
        rw [h1, h2, ih2]
      · intro l hl
        cases l with
        | zero =>
          obtain ⟨d, rest, hrest⟩ : ∃ d rest, backDeltas σd zL t os' ws' = d :: rest := by
            cases hcase : backDeltas σd zL t os' ws' with
            | nil => exact absurd hcase hne
            | cons d rest => exact ⟨d, rest, rfl⟩
          simp [backDeltas, hrest]
        | succ l' =>
          have hl' : l' + 1 < os'.length := by
            simp at hl; omega
          have := ih3 l' hl'
          simp only [backDeltas, List.getD_cons_succ]
          exact this

theorem backDeltas_dims (σd : ℚ → ℚ) (k : Nat) :
    ∀ (ns' : List Nat) (n : Nat) (os ws : List Mat) (zL t : Mat),
      List.Forall₂ (fun n m => HasDims m n k) (n :: ns') os →
      WeightsMatch n ws ns' →
      HasDims zL ((n :: ns').getLastD 0) k →
      HasDims t ((n :: ns').getLastD 0) k →
      (∀ m ∈ n :: ns', 0 < m) →
      List.Forall₂ (fun n m => HasDims m n k) (n :: ns')
        (backDeltas σd zL t os ws) := by
  intro ns'
  induction ns' with
  | nil =>
    intro n os ws zL t hos hw hzL ht _
    cases hos with
    | cons ho hrest =>
      cases hrest
      cases ws with
      | nil =>
        refine List.Forall₂.cons ?_ List.Forall₂.nil
        have hn : ([n] : List Nat).getLastD 0 = n := by simp
        rw [hn] at hzL ht
        exact hadamard_dims (matSub_dims hzL ht) (mapMat_dims ho)
      | cons w ws' => exact absurd hw (fun h => h)
  | cons n' ns'' ih =>
    intro n os ws zL t hos hw hzL ht hpos
    cases hos with
    | @cons _ o _ os' ho hrest =>
      cases ws with
      | nil => exact absurd hw (fun h => h)
      | cons w ws' =>
        obtain ⟨hwd, hw'⟩ := hw
        have hlast : ((n' :: ns'') : List Nat).getLastD 0 =
            ((n :: n' :: ns'') : List Nat).getLastD 0 := by
          simp [List.getLastD_cons]
        have hd := ih n' os' ws' zL t hrest hw' (hlast ▸ hzL) (hlast ▸ ht)
          (fun m hm => hpos m (by simp at hm ⊢; tauto))
        have hn' : 0 < n' := hpos n' (by simp)
        obtain ⟨d, rest, hdr⟩ : ∃ d rest, backDeltas σd zL t os' ws' = d :: rest := by
          cases hcase : backDeltas σd zL t os' ws' with
          | nil => rw [hcase] at hd; cases hd
          | cons d rest => exact ⟨d, rest, rfl⟩
        have hddims : HasDims d n' k := by
          rw [hdr] at hd
          cases hd with
          | cons h1 _ => exact h1
        have hhead : HasDims (hadamard
            (matMul (transposeM w) ((backDeltas σd zL t os' ws').headD []))
            (mapMat σd o)) n k := by
          rw [hdr]
          exact hadamard_dims
            (matMul_dims (transposeM_dims hwd hn') (by simpa using hddims) hn')
            (mapMat_dims ho)
        have hcons : List.Forall₂ (fun n m => HasDims m n k) (n :: n' :: ns'')
            (hadamard (matMul (transposeM w) ((backDeltas σd zL t os' ws').headD []))
                (mapMat σd o)
              :: backDeltas σd zL t os' ws') :=
          List.Forall₂.cons hhead hd
        simpa only [backDeltas] using hcons

/-- **C3.** `backward` computes
`delta[L-1] = (activations[L-1] − target) ⊙ σ'(outputs[L-1])` and, for
`l` from `L-2` down to `1`,
`delta[l] = (weight[l+1]ᵀ · delta[l+1]) ⊙ σ'(outputs[l])`, the derivative
taken at the pre-activations; every `delta[l]` is a `(shape[l], k)` matrix
(list index `l-1` holds layer `l`). -/
theorem backward_spec (σd : ℚ → ℚ) (k n0 n1 : Nat) (ns : List Nat)
    (weights os zs : List Mat) (z0 target : Mat)
    (hw : WeightsMatch n0 weights (n1 :: ns))
    (hos : List.Forall₂ (fun n m => HasDims m n k) (n1 :: ns) os)
    (hzs : List.Forall₂ (fun n m => HasDims m n k) (n1 :: ns) zs)
    (ht : HasDims target (((n1 :: ns) : List Nat).getLastD 0) k)
    (hpos : ∀ n ∈ n1 :: ns, 0 < n) :
    (backward σd weights os (z0 :: zs) target).length = os.length ∧
    (backward σd weights os (z0 :: zs) target).getLastD [] =
      hadamard (matSub ((z0 :: zs).getLastD []) target)
        (mapMat σd (os.getLastD [])) ∧
    (∀ l, l + 1 < os.length →
      (backward σd weights os (z0 :: zs) target).getD l [] =
        hadamard (matMul (transposeM (weights.getD (l + 1) []))
            ((backward σd weights os (z0 :: zs) target).getD (l + 1) []))
          (mapMat σd (os.getD l []))) ∧
    List.Forall₂ (fun n m => HasDims m n k) (n1 :: ns)
      (backward σd weights os (z0 :: zs) target) := by
  cases weights with
  | nil => exact absurd hw (fun h => h)
  | cons W ws' =>
    obtain ⟨hWd, hw'⟩ := hw
    have hoslen : os.length = ns.length + 1 := by
      have := hos.length_eq
      simpa using this.symm
    have hwslen : ws'.length = ns.length := weightsMatch_length n1 ws' ns hw'
    have hlen : os.length = ws'.length + 1 := by omega
    -- the final activation of the batch
    cases hzs with
    | @cons _ z1 _ zs' hz1 hzrest =>
      have hzL : HasDims ((z0 :: z1 :: zs').getLastD [])
          (((n1 :: ns) : List Nat).getLastD 0) k := by
        have h1 : (z0 :: z1 :: zs').getLastD [] = (z1 :: zs').getLastD [] := by
          rw [List.getLastD_cons]
          exact getLastD_irrel _ (by simp) _ _
        rw [h1]
        exact forall₂_getLastD hzrest n1 z1 hz1
      have hzsfull : List.Forall₂ (fun n m => HasDims m n k) (n1 :: ns) (z1 :: zs') :=
        List.Forall₂.cons hz1 hzrest
      obtain ⟨e1, e2, e3⟩ :=
        backDeltas_eqs σd ((z0 :: z1 :: zs').getLastD []) target ws' os hlen
      have hdims := backDeltas_dims σd k ns n1 os ws'
        ((z0 :: z1 :: zs').getLastD []) target hos hw' hzL ht hpos
      refine ⟨?_, ?_, ?_, ?_⟩
      · simpa [backward] using e1
      · simpa [backward] using e2
      · intro l hl
        have := e3 l hl
        simpa [backward, List.getD_cons_succ] using this
      · simpa [backward] using hdims

theorem backward_spec_witness :
    (backward id [[[2]]] [[[3]]] [[[5]], [[4]]] [[1]]).length = 1 ∧
    (backward id [[[2]]] [[[3]]] [[[5]], [[4]]] [[1]]).getLastD [] =
      hadamard (matSub (([[[5]], [[4]]] : List Mat).getLastD []) [[1]])
        (mapMat id (([[[3]]] : List Mat).getLastD [])) :=
  have h := backward_spec id 1 1 1 [] [[[2]]] [[[3]]] [[[4]]] [[5]] [[1]]
    (by decide)
    (List.Forall₂.cons (by decide) List.Forall₂.nil)
    (List.Forall₂.cons (by decide) List.Forall₂.nil)
    (by decide) (by decide)
  ⟨h.1, h.2.1⟩

theorem range_map_getD (v : List ℚ) :
    (List.range v.length).map (fun i => [v.getD i 0]) = v.map (fun x => [x]) := by
  induction v with
  | nil => simp
  | cons x xs ih =>
    rw [List.length_cons, List.range_succ_eq_map, List.map_cons, List.map_map]
    simp only [List.getD_cons_zero]
    congr 1

theorem reshapeTo_column {v : List ℚ} {n : Nat} (hv : v.length = n) :
    reshapeTo v n 1 = some (v.map (fun x => [x])) := by
  subst hv
  have hcond : v.length = v.length * 1 := by ring
  unfold reshapeTo
  rw [if_pos hcond]
  congr 1
  calc (List.range v.length).map
        (fun i => (List.range 1).map (fun j => v.getD (i * 1 + j) 0))
      = (List.range v.length).map (fun i => [v.getD i 0]) := by
        apply List.map_congr_left
        intro i _
        rw [List.range_succ, List.range_zero]
        simp
    _ = v.map (fun x => [x]) := range_map_getD v

theorem bias_shape_of_dims {b : Mat} {n : Nat} (hb : HasDims b n 1) (hn : 0 < n) :
    b.length = n ∧ (b.headD []).length = 1 := by
  obtain ⟨hlen, hrow⟩ := hb
  refine ⟨hlen, ?_⟩
  cases b with
  | nil => simp at hlen; omega
  | cons r rest => exact hrow r (by simp)

theorem biasStep_some {lr total : ℚ} {b d : Mat} {n k : Nat}
    (hb : HasDims b n 1) (hn : 0 < n) (hd : HasDims d n k) :
    biasStep lr total b d =
      some (matSub b (smulMat (lr / total) ((colwiseSum d).map (fun x => [x])))) := by
  obtain ⟨hblen, hbhead⟩ := bias_shape_of_dims hb hn
  have hvlen : (colwiseSum d).length = n := by simp [colwiseSum, hd.1]
  rw [biasStep, hblen, hbhead, reshapeTo_column hvlen]
  rfl

theorem biasStep_none {lr total : ℚ} {b d : Mat} {n m k : Nat}
    (hb : HasDims b n 1) (hn : 0 < n) (hd : HasDims d m k) (hm : m ≠ n) :
    biasStep lr total b d = none := by
  obtain ⟨hblen, hbhead⟩ := bias_shape_of_dims hb hn
  have hvlen : (colwiseSum d).length = m := by simp [colwiseSum, hd.1]
  rw [biasStep, hblen, hbhead, reshapeTo, if_neg (by simpa [hvlen] using hm)]
  rfl

theorem biasStep_dims {lr total : ℚ} {b d : Mat} {n k : Nat}
    (hb : HasDims b n 1) (hn : 0 < n) (hd : HasDims d n k) :
    ∀ s, biasStep lr total b d = some s → HasDims s n 1 := by
  intro s hs
  rw [biasStep_some hb hn hd] at hs
  obtain rfl := Option.some.inj hs
  have hcol : HasDims ((colwiseSum d).map (fun x => [x])) n 1 := by
    constructor
    · simp [colwiseSum, hd.1]
    · intro row hrow
      simp only [List.mem_map] at hrow
      obtain ⟨x, _, rfl⟩ := hrow
      rfl
  exact matSub_dims hb (smulMat_dims hcol)

/-- **C1.** (Supporting theorem for the recorded code bug; it verifies the
bias update as the notebook's own text documents it, with `.reshape(b.shape)`
in place of the cell's `resape` slip.)  The documented update subtracts
`(learningRate/batchSize)` times the column-wise sum of the delta — reshaped
to a single `(n, 1)` column exactly matching the bias's shape — keeps the
bias shape, and fails (`ValueError`, the spec's `ShapeMismatchError`) instead
of silently proceeding whenever the summed column cannot be reshaped to the
bias's shape. -/
theorem bias_update_documented (lr total : ℚ) (b d d' : Mat) (n m k k' : Nat)
    (hb : HasDims b n 1) (hn : 0 < n) :
    (HasDims d n k →
      biasStep lr total b d =
        some (matSub b (smulMat (lr / total) ((colwiseSum d).map (fun x => [x])))) ∧
      ∀ s, biasStep lr total b d = some s → HasDims s n 1) ∧
    (HasDims d' m k' → m ≠ n → biasStep lr total b d' = none) :=
  ⟨fun hd => ⟨biasStep_some hb hn hd, biasStep_dims hb hn hd⟩,
   fun hd' hm => biasStep_none hb hn hd' hm⟩

theorem bias_update_documented_witness :
    (biasStep 1 2 [[0]] [[1, 1]] =
      some (matSub [[0]]
        (smulMat (1 / 2) ((colwiseSum [[1, 1]]).map (fun x => [x]))))) ∧
    biasStep 1 2 [[0]] [[1], [2]] = none :=
  ⟨((bias_update_documented 1 2 [[0]] [[1, 1]] [[1, 1]] 1 1 2 2
      (by decide) (by decide)).1 (by decide)).1,
   (bias_update_documented 1 2 [[0]] [[1], [2]] [[1], [2]] 1 2 2 1
      (by decide) (by decide)).2 (by decide) (by decide)⟩

/-- **C7.** The forward pass only writes the stored intermediates
(`outputs`, `activations`); the parameter store (weights and biases) and the
rest of the network object's pre-existing state are unchanged. -/
theorem forward_frame (act : ℚ → ℚ) (st : NetState) (input : Mat) :
    (forwardPass act st input).weights = st.weights ∧
    (forwardPass act st input).biases = st.biases ∧
    (forwardPass act st input).shape = st.shape := by
  simp [forwardPass]

theorem zip3With_getD (f : Mat → Mat → Mat → Mat) :
    ∀ (ws ds acts : List Mat) (l : Nat),
      l < ws.length → l < ds.length → l < acts.length →
      (zip3With f ws ds acts).getD l [] =
        f (ws.getD l []) (ds.getD l []) (acts.getD l []) := by
  intro ws
  induction ws with
  | nil => intro ds acts l h1 _ _; simp at h1
  | cons w ws ih =>
    intro ds acts l h1 h2 h3
    cases ds with
    | nil => simp at h2
    | cons d ds =>
      cases acts with
      | nil => simp at h3
      | cons a acts =>
        cases l with
        | zero => simp [zip3With]
        | succ l =>
          simp only [zip3With, List.getD_cons_succ]
          exact ih ds acts l (by simpa using h1) (by simpa using h2)
            (by simpa using h3)

theorem weightUpdate_match (eta total : ℚ) (k : Nat) (hk : 0 < k) :
    ∀ (ns : List Nat) (nprev : Nat) (ws ds acts : List Mat),
      WeightsMatch nprev ws ns →
      List.Forall₂ (fun n m => HasDims m n k) ns ds →
      List.Forall₂ (fun n m => HasDims m n k) (nprev :: ns) acts →
      0 < nprev → (∀ n ∈ ns, 0 < n) →
      WeightsMatch nprev (weightUpdate eta total ws ds acts) ns := by
  intro ns
  induction ns with
  | nil =>
    intro nprev ws ds acts hw hd hacts hp hpos
    cases ws with
    | nil => cases hd; exact trivial
    | cons w ws => exact absurd hw (fun h => h)
  | cons n ns ih =>
    intro nprev ws ds acts hw hd hacts hp hpos
    cases ws with
    | nil => exact absurd hw (fun h => h)
    | cons w ws =>
      cases hd with
      | @cons _ d _ ds hd1 hdrest =>
        cases hacts with
        | @cons _ a _ acts2 ha1 harest =>
          obtain ⟨hwd, hw'⟩ := hw
          have hn : 0 < n := hpos n (by simp)
          have hhead : HasDims
              (matSub w (smulMat (eta / total) (matMul d (transposeM a))))
              n nprev :=
            matSub_dims hwd
              (smulMat_dims (matMul_dims hd1 (transposeM_dims ha1 hp) hk))
          have hrest := ih n ws ds acts2 hw' hdrest harest hn
            (fun m hm => hpos m (by simp [hm]))
          exact ⟨hhead, hrest⟩

theorem biasUpdate_match (lr total : ℚ) (k : Nat) :
    ∀ (ns : List Nat) (bs ds : List Mat),
      BiasesMatch bs ns →
      List.Forall₂ (fun n m => HasDims m n k) ns ds →
      (∀ n ∈ ns, 0 < n) →
      ∀ bs', biasUpdate lr total bs ds = some bs' → BiasesMatch bs' ns := by
  intro ns
  induction ns with
  | nil =>
    intro bs ds hb hd hpos bs' hup
    cases hd
    cases bs with
    | nil =>
      have hbs' : bs' = [] := by
        have : (some [] : Option (List Mat)) = some bs' := hup
        exact (Option.some.inj this).symm
      subst hbs'
      exact trivial
    | cons b bs => exact absurd hb (fun h => h)
  | cons n ns ih =>
    intro bs ds hb hd hpos bs' hup
    cases bs with
    | nil => exact absurd hb (fun h => h)
    | cons b bs =>
      cases hd with
      | @cons _ d _ ds hd1 hdrest =>
        obtain ⟨hb1, hb'⟩ := hb
        have hn : 0 < n := hpos n (by simp)
        have hup' : (biasStep lr total b d).bind
            (fun s => (biasUpdate lr total bs ds).bind
              (fun rest => some (s :: rest))) = some bs' := hup
        cases hstep : biasStep lr total b d with
        | none => rw [hstep] at hup'; simp at hup'
        | some s =>
          rw [hstep] at hup'
          cases hrec : biasUpdate lr total bs ds with
          | none => rw [hrec] at hup'; simp at hup'
          | some rest =>
            rw [hrec] at hup'
            have hbs' : s :: rest = bs' := by simpa using hup'
            subst hbs'
            exact ⟨biasStep_dims hb1 hn hd1 s hstep,
              ih bs ds hb' hdrest (fun m hm => hpos m (by simp [hm])) rest hrec⟩

/-- **C4.** For every layer `l`, the weight update replaces `weight[l]` with
`weight[l] − (eta/total) · (delta[l] · activations[l-1]ᵀ)` — the zip pairs
each layer's delta with the previous layer's activation because the
activation list starts with the input batch — and the updated weights (and,
for the documented bias update, the updated biases) retain their pre-update
shapes. -/
theorem updater_weights (eta lr total : ℚ) (k n0 : Nat) (ns : List Nat)
    (weights biases deltas zs : List Mat) (z0 : Mat)
    (hk : 0 < k)
    (hw : WeightsMatch n0 weights ns)
    (hb : BiasesMatch biases ns)
    (hd : List.Forall₂ (fun n m => HasDims m n k) ns deltas)
    (hz0 : HasDims z0 n0 k)
    (hzs : List.Forall₂ (fun n m => HasDims m n k) ns zs)
    (hp0 : 0 < n0) (hpos : ∀ n ∈ ns, 0 < n) :
    (∀ l, l < ns.length →
      (weightUpdate eta total weights deltas (z0 :: zs)).getD l [] =
        matSub (weights.getD l [])
          (smulMat (eta / total)
            (matMul (deltas.getD l []) (transposeM ((z0 :: zs).getD l []))))) ∧
    WeightsMatch n0 (weightUpdate eta total weights deltas (z0 :: zs)) ns ∧
    (∀ bs', biasUpdate lr total biases deltas = some bs' → BiasesMatch bs' ns) := by
  refine ⟨?_, ?_, ?_⟩
  · intro l hl
    have h1 : l < weights.length := by
      rw [weightsMatch_length n0 weights ns hw]; exact hl
    have h2 : l < deltas.length := by
      have := hd.length_eq; omega
    have h3 : l < (z0 :: zs).length := by
      have := hzs.length_eq; simp; omega
    simpa [weightUpdate] using
      zip3With_getD _ weights deltas (z0 :: zs) l h1 h2 h3
  · exact weightUpdate_match eta total k hk ns n0 weights deltas (z0 :: zs)
      hw hd (List.Forall₂.cons hz0 hzs) hp0 hpos
  · exact biasUpdate_match lr total k ns biases deltas hb hd hpos

theorem updater_weights_witness :
    (weightUpdate 1 2 [[[2]]] [[[1]]] [[[3]], [[4]]]).getD 0 [] =
      matSub (([[[2]]] : List Mat).getD 0 [])
        (smulMat (1 / 2)
          (matMul (([[[1]]] : List Mat).getD 0 [])
            (transposeM (([[[3]], [[4]]] : List Mat).getD 0 [])))) ∧
    WeightsMatch 1 (weightUpdate 1 2 [[[2]]] [[[1]]] [[[3]], [[4]]]) [1] :=
  have h := updater_weights 1 1 2 1 1 [1] [[[2]]] [[[0]]] [[[1]]] [[[4]]] [[3]]
    (by decide) (by decide) (by decide)
    (List.Forall₂.cons (by decide) List.Forall₂.nil)
    (by decide)
    (List.Forall₂.cons (by decide) List.Forall₂.nil)
    (by decide) (by decide)
  ⟨h.1 0 (by decide), h.2.1⟩

/-- **C2** counterexample: loading a document that has a `shape` key but no
`weights` key fails (`KeyError "weights"`), yet the network's `shape` has
already been overwritten with the document's value — the state is not
"exactly what it was before the call". -/
theorem load_not_atomic :
    (load stPrior (some docMissingWeights)).2 = some (.keyError "weights") ∧
    (load stPrior (some docMissingWeights)).1 ≠ stPrior ∧
    (load stPrior (some docMissingWeights)).1.shape = [9, 9] := by decide

/-- **C2** amended: `load` commits fields strictly in sequence.  A failure at
the file read or at the `shape` key leaves the state exactly as before; a
missing `weights` key leaves `shape` already overwritten (weights and biases
unchanged); a missing `biases` key leaves `shape` and `weights` overwritten;
only a fully successful load commits all three fields. -/
theorem load_sequential_commit (st : NetState) (doc : Doc) :
    (load st none = (st, some .fileNotFound)) ∧
    (doc.shapeKey = none → load st (some doc) = (st, some (.keyError "shape"))) ∧
    (∀ s, doc.shapeKey = some s → doc.weightsKey = none →
      load st (some doc) = ({ st with shape := s }, some (.keyError "weights"))) ∧
    (∀ s ws, doc.shapeKey = some s → doc.weightsKey = some ws →
      doc.biasesKey = none →
      load st (some doc) =
        ({ st with shape := s, weights := ws }, some (.keyError "biases"))) ∧
    (∀ s ws bs, doc.shapeKey = some s → doc.weightsKey = some ws →
      doc.biasesKey = some bs →
      load st (some doc) =
        ({ st with shape := s, weights := ws, biases := bs }, none)) := by
  refine ⟨rfl, ?_, ?_, ?_, ?_⟩ <;> intros <;> simp_all [load]

theorem load_sequential_commit_witness :
    load stPrior (some docMissingWeights) =
      ({ stPrior with shape := [9, 9] }, some (.keyError "weights")) :=
  (load_sequential_commit stPrior docMissingWeights).2.2.1 [9, 9] rfl rfl

/-- **C6** counterexample: the dimensionally inconsistent document loads with
no error at all — `load` never checks the weight/bias entries against the
declared shape, so no `ShapeMismatchError` is raised. -/
theorem load_no_dimension_check :
    (load stPrior (some docInconsistent)).2 = none ∧
    ¬ HasDims [[(5 : ℚ)]] 3 2 ∧ ¬ HasDims [[(7 : ℚ)]] 3 1 := by decide

/-- **C6** amended: `load` performs no dimension or count validation —
whenever the three keys are present it succeeds and commits the document's
values verbatim, regardless of their consistency with the declared shape;
only missing keys (`KeyError`) and an unreadable file (`FileNotFoundError`)
are reported. -/
theorem load_accepts_any_dims (st : NetState) (s : List Nat) (ws bs : List Mat) :
    load st (some { shapeKey := some s, weightsKey := some ws,
                    biasesKey := some bs }) =
      ({ st with shape := s, weights := ws, biases := bs }, none) := rfl

/-- **C8.** Constructing from a shape sequence of fewer than 2 entries fails
with the configuration error (`raise ValueError` in the source, the spec's
`ConfigurationError`), before any of the `_init_*` calls run: the failed
construction yields no network state, hence no weights, biases or
intermediate storage. -/
theorem fromShape_too_short (shape : List Nat) (h : shape.length < 2) :
    fromShape shape = .error .configurationError ∧
    ∀ st, fromShape shape ≠ .ok st := by
  have heq : fromShape shape = .error .configurationError := by
    simp [fromShape, h]
  exact ⟨heq, fun st hcon => by rw [heq] at hcon; cases hcon⟩

theorem fromShape_too_short_witness :
    fromShape [5] = .error .configurationError ∧
    ∀ st, fromShape [5] ≠ .ok st :=
  fromShape_too_short [5] (by decide)

/-- **C10.** The public interface takes examples one per row: the constructor
stores the transpose of every supplied array (training and test alike), so an
externally supplied `(k, n0)` array becomes the internal `(n0, k)` batch with
examples as columns — the external layout is the transpose of the internal
one. -/
theorem training_data_transposed
    (train_data train_labels test_data test_labels : Mat)
    (k n0 c kt nt ct : Nat)
    (hd : HasDims train_data k n0) (hl : HasDims train_labels k c)
    (htd : HasDims test_data kt nt) (htl : HasDims test_labels kt ct)
    (hk : 0 < k) (hkt : 0 < kt) :
    (storeTrainingData train_data train_labels).1 = transposeM train_data ∧
    (storeTrainingData train_data train_labels).2 = transposeM train_labels ∧
    HasDims (storeTrainingData train_data train_labels).1 n0 k ∧
    HasDims (storeTrainingData train_data train_labels).2 c k ∧
    (storeTestData test_data test_labels).1 = transposeM test_data ∧
    HasDims (storeTestData test_data test_labels).1 nt kt ∧
    HasDims (storeTestData test_data test_labels).2 ct kt :=
  ⟨rfl, rfl, transposeM_dims hd hk, transposeM_dims hl hk, rfl,
   transposeM_dims htd hkt, transposeM_dims htl hkt⟩

theorem training_data_transposed_witness :
    (storeTrainingData [[1, 2], [3, 4], [5, 6]] [[1], [0], [1]]).1 =
      transposeM [[1, 2], [3, 4], [5, 6]] ∧
    HasDims (storeTrainingData [[1, 2], [3, 4], [5, 6]] [[1], [0], [1]]).1 2 3 :=
  have h := training_data_transposed [[1, 2], [3, 4], [5, 6]] [[1], [0], [1]]
    [[7, 8]] [[0]] 3 2 1 1 2 1
    (by decide) (by decide) (by decide) (by decide) (by decide) (by decide)
  ⟨h.1, h.2.2.1⟩

end NeuralNetImpl
